import Mathlib

/-!
Verification development for the docx cover-merge web service (src/app.py).

The Flask request handler and its helpers are shallowly embedded:

* Filenames and filesystem paths are lists of characters.
* The on-disk state is a finite association list from paths to file
  contents; python-docx documents are modelled abstractly as lists of
  paragraphs, each a list of run elements (text or an explicit page
  break).  Bytes that the document library fails to parse are
  `FileData.invalid`.
* The strftime timestamps are modelled by a counter rendered as a decimal
  digit string; the counter strictly increases with each clock read inside
  a request, which is exactly the property the code relies on for unique
  temp-file names.
* Exceptions are modelled with `Except`; the try/except block of the
  handler is the `catchErr` wrapper.  The handler result additionally
  carries `savedLog`, a ghost trace listing every path written during the
  request, in order; it has no influence on the computation and is only
  used to state when saves happen.
* `werkzeug.utils.secure_filename` is modelled for ASCII inputs, where
  NFKD normalisation is the identity and the Windows device-name branch is
  inactive.
-/

/-- Filesystem paths and filenames are lists of characters. -/
abbrev FPath := List Char

/-- The characters of the fixed extension `.docx` checked by the code. -/
def docxPat : FPath := ['.', 'd', 'o', 'c', 'x']

/-- Python `s.lower()` restricted to ASCII: uppercase ASCII letters are
mapped to lowercase, all other characters kept. `Char.toLower` does
exactly this. -/
def lowerChars (s : List Char) : List Char := s.map Char.toLower

/-- Python `s.endswith('.docx')`: the last five characters of `s` are
`.docx`.  For `s` shorter than five characters `s.drop (s.length - 5) = s`
and the comparison is false, matching Python. -/
def endsDocx (s : List Char) : Bool := decide (s.drop (s.length - 5) = docxPat)

/-- `allowed_file` from src/app.py line 32: `bool(filename) and
filename.lower().endswith('.docx')`. -/
def allowedFile (s : List Char) : Bool := (!s.isEmpty) && endsDocx (lowerChars s)

/-- Python whitespace test for `str.split()` (ASCII fragment). -/
def pyIsSpace (c : Char) : Bool := c = ' ' || c = '\t' || c = '\n' || c = '\r'

/-- Python `s.split()`: split on runs of whitespace, dropping empty words.
The first argument accumulates the current word in reverse. -/
def wordsGo : List Char → List Char → List (List Char)
  | cur, [] => if cur = [] then [] else [cur.reverse]
  | cur, c :: cs =>
    if pyIsSpace c then
      (if cur = [] then wordsGo [] cs else cur.reverse :: wordsGo [] cs)
    else wordsGo (c :: cur) cs

/-- Python `'_'.join(ws)`. -/
def joinUnd : List (List Char) → List Char
  | [] => []
  | [w] => w
  | w :: ws => w ++ '_' :: joinUnd ws

/-- Characters kept by the `[^A-Za-z0-9_.-]` deletion in
`secure_filename`. -/
def isAsciiKeep (c : Char) : Bool :=
  ('A' ≤ c && c ≤ 'Z') || ('a' ≤ c && c ≤ 'z') || ('0' ≤ c && c ≤ '9') ||
    c = '_' || c = '.' || c = '-'

/-- Characters removed from both ends by `.strip("._")`. -/
def isStripCh (c : Char) : Bool := c = '.' || c = '_'

/-- Python `s.strip("._")`: drop leading and trailing `.` and `_`. -/
def stripEnds (s : List Char) : List Char :=
  ((s.dropWhile isStripCh).reverse.dropWhile isStripCh).reverse

/-- `werkzeug.utils.secure_filename`, modelled for ASCII inputs: drop
non-ASCII bytes (the `encode("ascii", "ignore")` step; NFKD is the
identity on ASCII), replace the path separator by a space, join the
whitespace-split words with underscores, delete characters outside
`[A-Za-z0-9_.-]`, and strip `.` and `_` from both ends.  The Windows
device-name branch is inactive (`os.name != 'nt'`). -/
def secureFilename (s : List Char) : List Char :=
  let s1 := s.filter (fun c => c.toNat < 128)
  let s2 := s1.map (fun c => if c = '/' then ' ' else c)
  let s3 := joinUnd (wordsGo [] s2)
  let s4 := s3.filter isAsciiKeep
  stripEnds s4

/-- The part of `s` strictly before the last occurrence of the substring
`.docx`, or `none` when the substring does not occur: this is
`s.rsplit('.docx', 1)[0]` when the result is `some`, and the whole string
when it is `none`.  If the tail contains an occurrence, the last
occurrence of the whole list lies in the tail. -/
def rsplitTail : List Char → Option (List Char)
  | [] => none
  | c :: cs =>
    match rsplitTail cs with
    | some p => some (c :: p)
    | none => if (c :: cs).take 5 = docxPat then some [] else none

/-- `s.rsplit('.docx', 1)[0]`: the part before the last occurrence of
`.docx`, or all of `s` when `.docx` does not occur in `s`. -/
def stemOf (s : List Char) : List Char :=
  match rsplitTail s with
  | some p => p
  | none => s

/-- The fixed suffix appended to output names (src/app.py line 68). -/
def withCoverSuffix : FPath := "_with_cover.docx".data

/-- The output base name computed at src/app.py line 68:
`secure_filename(cf.filename).rsplit('.docx', 1)[0] + '_with_cover.docx'`. -/
def outBasename (s : List Char) : List Char :=
  stemOf (secureFilename s) ++ withCoverSuffix

/-- Modelled from the spec: "download name = original content filename
with extension replaced by a fixed suffix" — the final five-character
document extension of the (accepted) filename is removed and the fixed
suffix `_with_cover.docx` is appended.  Used only to compare the spec's
naming rule with the one the code implements. -/
def specOutputName (s : List Char) : List Char :=
  s.take (s.length - 5) ++ withCoverSuffix

/-- One decimal digit character. -/
def digitChar (d : Nat) : Char :=
  if d = 0 then '0' else if d = 1 then '1' else if d = 2 then '2'
  else if d = 3 then '3' else if d = 4 then '4' else if d = 5 then '5'
  else if d = 6 then '6' else if d = 7 then '7' else if d = 8 then '8'
  else '9'

/-- Decimal rendering of a natural number with explicit fuel, so that the
definition is structurally recursive and reduces in the kernel. -/
def natDigitsGo (fuel n : Nat) : List Char :=
  match fuel with
  | 0 => []
  | fuel + 1 =>
    if n < 10 then [digitChar n]
    else natDigitsGo fuel (n / 10) ++ [digitChar (n % 10)]

/-- The decimal digit string of `n`: the model of one
`datetime.now().strftime('%Y%m%d%H%M%S%f')` timestamp, where `n` is the
value of the monotone clock counter at the moment of the call. -/
def natDigits (n : Nat) : List Char := natDigitsGo (n + 1) n

/-- Value of a digit character. -/
def digitVal (c : Char) : Nat := c.toNat - 48

/-- Decimal decoding, inverse to `natDigits`. -/
def decodeDigits (l : List Char) : Nat :=
  l.foldl (fun a c => 10 * a + digitVal c) 0

/-- The upload directory `temp_uploads` configured at src/app.py line 15. -/
def uploadFolderChars : FPath := "temp_uploads".data

/-- `os.path.join(app.config['UPLOAD_FOLDER'], name)`. -/
def upPath (name : List Char) : FPath := uploadFolderChars ++ '/' :: name

/-- The on-disk name `f"{ts}_{secure_filename(...)}"` given to a saved
upload, with `ctr` the clock counter of the strftime call. -/
def tsName (ctr : Nat) (base : List Char) : List Char :=
  natDigits ctr ++ '_' :: base

/-- The fixed name part `merged_` of saved merge outputs. -/
def mergedPfx : List Char := ['m', 'e', 'r', 'g', 'e', 'd', '_']

/-- The on-disk name `f"merged_{ts}_{secure_filename(output_filename)}"`
given to a saved merge output. -/
def mergedName (ctr : Nat) (base : List Char) : List Char :=
  mergedPfx ++ natDigits ctr ++ '_' :: base

/-- A path in the upload directory whose name was generated by a strftime
call strictly before counter value `n` — either a saved upload or a saved
merge output. -/
def oldPath (n : Nat) (p : FPath) : Prop :=
  ∃ k r, k < n ∧ (p = upPath (tsName k r) ∨ p = upPath (mergedName k r))

/-- One element of a paragraph: a text run or an explicit page break
(`WD_BREAK.PAGE` added via `add_run().add_break`). -/
inductive RunElem where
  | text (s : List Char)
  | pageBreak
deriving DecidableEq

/-- A paragraph is its list of run elements. -/
abbrev Para := List RunElem

/-- A python-docx document, abstracted to its list of paragraphs.  Styles,
headers and footers travel with the base document and need no separate
representation for the claims considered here. -/
structure Doc where
  paragraphs : List Para
deriving DecidableEq

/-- Contents of a file on disk: bytes that parse as a document, or bytes
that make the document library raise (`invalid`, tagged to tell different
corrupt files apart). -/
inductive FileData where
  | docx (d : Doc)
  | invalid (tag : Nat)
deriving DecidableEq

/-- The in-memory document manipulation of `merge_documents_properly`
(src/app.py lines 124-137): use the template as base; take its last
paragraph, or a freshly added one if it has none; append a page-break run
to that paragraph; then compose the content document after the template. -/
def mergeDocuments (template content : Doc) : Doc :=
  let basePars := if template.paragraphs = [] then [([] : Para)]
                  else template.paragraphs
  let withBreak := basePars.dropLast ++ [basePars.getLastD [] ++ [RunElem.pageBreak]]
  Doc.mk (withBreak ++ content.paragraphs)

/-- Number of page-break run elements in one paragraph. -/
def breaksInPara : Para → Nat
  | [] => 0
  | RunElem.pageBreak :: rs => breaksInPara rs + 1
  | RunElem.text _ :: rs => breaksInPara rs

/-- Number of page-break run elements in a document. -/
def countBreaks (d : Doc) : Nat := (d.paragraphs.map breaksInPara).sum

/-- The temp-upload directory state: a finite map from paths to file
contents, as an association list without duplicate keys in lookup. -/
abbrev FS := List (FPath × FileData)

/-- Contents at path `p`, or `none` when no such file exists. -/
def lookupFS : FS → FPath → Option FileData
  | [], _ => none
  | e :: fs, p => if e.1 = p then some e.2 else lookupFS fs p

/-- `os.remove` / deletion of path `p`; removing an absent path is a
no-op. -/
def removeFS : FS → FPath → FS
  | [], _ => []
  | e :: fs, p => if e.1 = p then removeFS fs p else e :: removeFS fs p

/-- Saving data at path `p`, overwriting any previous contents. -/
def writeFS (fs : FS) (p : FPath) (d : FileData) : FS := (p, d) :: removeFS fs p

/-- Whether a file exists at path `p`. -/
def memFS (fs : FS) (p : FPath) : Bool := (lookupFS fs p).isSome

/-- `cleanup_files` (src/app.py lines 146-158): delete every given path,
ignoring absent paths; it is a total function on the filesystem state, so
it never raises. -/
def cleanupFiles (fs : FS) : List FPath → FS
  | [] => fs
  | p :: rest => cleanupFiles (removeFS fs p) rest

/-- The generic message of the exception raised when `Document(path)`
cannot parse the bytes at `path` (python-docx raises; `str(e)` is what the
handler returns). -/
def docParseError : String := "File is not a valid docx package"

/-- Message of the (never observed in practice) exception raised when a
just-written merge output cannot be opened for reading. -/
def fileMissingError : String := "No such file or directory"

/-- `Document(path)`: parse the file at `path`, raising when the file is
absent or its bytes are not a valid document. -/
def loadDocument (fs : FS) (p : FPath) : Except String Doc :=
  match lookupFS fs p with
  | some (FileData.docx d) => Except.ok d
  | _ => Except.error docParseError

/-- `merge_documents_properly` (src/app.py lines 118-144): load the
template fresh from disk, load the content document, compose them with a
page break in between, and save the result under a timestamp-derived name
in the upload folder.  Takes and returns the clock counter (one strftime
call); returns the output path and the new filesystem. -/
def mergeDocumentsProperly (fs : FS) (ctr : Nat) (templatePath contentPath : FPath)
    (outputFilename : List Char) : Except String (FPath × FS × Nat) :=
  match loadDocument fs templatePath with
  | Except.error e => Except.error e
  | Except.ok templateDoc =>
    match loadDocument fs contentPath with
    | Except.error e => Except.error e
    | Except.ok contentDoc =>
      let outPath := upPath (mergedName ctr (secureFilename outputFilename))
      Except.ok (outPath,
        writeFS fs outPath (FileData.docx (mergeDocuments templateDoc contentDoc)),
        ctr + 1)

/-- One uploaded file of a multipart request: its client-supplied filename
and its bytes.  The werkzeug `FileStorage` object is truthy exactly when
its filename is non-empty, which is what `if not template_file` tests. -/
structure ReqFile where
  filename : List Char
  content : FileData
deriving DecidableEq

/-- A request to POST /api/merge-docx: the `template` field
(`request.files['template']`, `none` when the key is absent) and the
`content_files[]` field (`request.files.getlist('content_files[]')`,
`none` when the key is absent). -/
structure Request where
  template : Option ReqFile
  contentFiles : Option (List ReqFile)
deriving DecidableEq

/-- Body of a 200 response: the bytes of one file read into memory, or an
in-memory zip archive listing (entry name, entry bytes) in insertion
order. -/
inductive Body where
  | fileBytes (d : FileData)
  | zipArchive (entries : List (List Char × FileData))
deriving DecidableEq

/-- A `send_file` response: download name, MIME type and body. -/
structure FileResp where
  downloadName : List Char
  mimetype : String
  body : Body
deriving DecidableEq

/-- A response of the handler: `jsonify({'error': msg}), status` or a 200
file download. -/
inductive Response where
  | json (status : Nat) (error : String)
  | file (r : FileResp)
deriving DecidableEq

/-- The mutable state of the handler while the content loop runs: the
filesystem, the clock counter, the `uploaded_paths` and `merged_paths`
variables, and the ghost trace of all saves performed so far. -/
structure HState where
  fs : FS
  ctr : Nat
  uploadedPaths : List FPath
  mergedPaths : List (List Char × FPath)
  savedLog : List FPath
deriving DecidableEq

/-- What the top-level `except` block can see when an exception escapes
the body: the exception message and the values of the filesystem, the
tracking lists and the ghost trace at the moment of the raise. -/
structure ErrSt where
  msg : String
  fs : FS
  uploadedPaths : List FPath
  mergedPaths : List (List Char × FPath)
  ctr : Nat
  savedLog : List FPath
deriving DecidableEq

/-- Result of one request: the response together with the final
filesystem, clock counter and ghost save trace. -/
structure HResult where
  response : Response
  fs : FS
  ctr : Nat
  savedLog : List FPath
deriving DecidableEq

/-- The `for cf in content_files:` loop (src/app.py lines 60-70): skip
files failing the extension check; save each remaining file under a
timestamped name, record it in `uploaded_paths`, merge it against the
template and record the output in `merged_paths`.  An exception inside
the loop aborts it with the current state. -/
def processContent (templatePath : FPath) :
    List ReqFile → HState → Except ErrSt HState
  | [], st => Except.ok st
  | cf :: rest, st =>
    if allowedFile cf.filename then
      let contentPath := upPath (tsName st.ctr (secureFilename cf.filename))
      let fs1 := writeFS st.fs contentPath cf.content
      let up1 := st.uploadedPaths ++ [contentPath]
      let log1 := st.savedLog ++ [contentPath]
      let outBase := outBasename cf.filename
      match mergeDocumentsProperly fs1 (st.ctr + 1) templatePath contentPath outBase with
      | Except.error m =>
        Except.error ⟨m, fs1, up1, st.mergedPaths, st.ctr + 1, log1⟩
      | Except.ok (mergedPath, fs2, ctr2) =>
        processContent templatePath rest
          ⟨fs2, ctr2, up1, st.mergedPaths ++ [(outBase, mergedPath)], log1 ++ [mergedPath]⟩
    else processContent templatePath rest st

/-- `open(path, 'rb').read()`: the bytes at `path`, raising when absent. -/
def readFile (fs : FS) (p : FPath) : Except String FileData :=
  match lookupFS fs p with
  | some d => Except.ok d
  | none => Except.error fileMissingError

/-- Reading each merged output into the in-memory zip archive, in order
(src/app.py lines 94-98). -/
def readEntries (fs : FS) : List (List Char × FPath) →
    Except String (List (List Char × FileData))
  | [] => Except.ok []
  | (f, p) :: rest =>
    match readFile fs p with
    | Except.error e => Except.error e
    | Except.ok d =>
      match readEntries fs rest with
      | Except.error e => Except.error e
      | Except.ok es => Except.ok ((f, d) :: es)

/-- Error messages and MIME strings of the handler (src/app.py). -/
def msgMissing : String := "Missing files"

/-- Message at src/app.py line 47. -/
def msgNoFiles : String := "No files provided"

/-- Message at src/app.py line 50. -/
def msgTemplate : String := "Template must be a .docx file"

/-- Message at src/app.py line 74. -/
def msgNoValid : String := "No valid .docx content files uploaded"

/-- MIME type of a single merged document (src/app.py line 89). -/
def docxMime : String :=
  "application/vnd.openxmlformats-officedocument.wordprocessingml.document"

/-- MIME type of the zip response (src/app.py line 106). -/
def zipMime : String := "application/zip"

/-- Download name of the zip response (src/app.py line 105). -/
def zipName : List Char := "merged_documents.zip".data

/-- The tail of the handler after the content loop (src/app.py lines
72-107): 400 when nothing merged, a direct download for exactly one merge
result, an in-memory zip for several; merged outputs are read into memory
and then all tracked temp files are deleted before the response is
built. -/
def finishRequest (st : HState) : Except ErrSt HResult :=
  match st.mergedPaths with
  | [] =>
    Except.ok ⟨Response.json 400 msgNoValid,
      cleanupFiles st.fs st.uploadedPaths, st.ctr, st.savedLog⟩
  | [m] =>
    match readFile st.fs m.2 with
    | Except.error e =>
      Except.error ⟨e, st.fs, st.uploadedPaths, st.mergedPaths, st.ctr, st.savedLog⟩
    | Except.ok data =>
      Except.ok ⟨Response.file ⟨m.1, docxMime, Body.fileBytes data⟩,
        cleanupFiles st.fs (st.uploadedPaths ++ st.mergedPaths.map Prod.snd),
        st.ctr, st.savedLog⟩
  | ms =>
    match readEntries st.fs ms with
    | Except.error e =>
      Except.error ⟨e, st.fs, st.uploadedPaths, st.mergedPaths, st.ctr, st.savedLog⟩
    | Except.ok entries =>
      Except.ok ⟨Response.file ⟨zipName, zipMime, Body.zipArchive entries⟩,
        cleanupFiles st.fs (st.uploadedPaths ++ st.mergedPaths.map Prod.snd),
        st.ctr, st.savedLog⟩

/-- The handler body after validation succeeded (src/app.py lines 52-107):
save the template under a timestamped name, track it, run the content
loop, finish. -/
def afterValidation (tf : ReqFile) (cfs : List ReqFile) (fs0 : FS) (c0 : Nat) :
    Except ErrSt HResult :=
  let templatePath := upPath (tsName c0 (secureFilename tf.filename))
  let fs1 := writeFS fs0 templatePath tf.content
  match processContent templatePath cfs ⟨fs1, c0 + 1, [templatePath], [], [templatePath]⟩ with
  | Except.error e => Except.error e
  | Except.ok st => finishRequest st

/-- The `try` block of `merge_docx` (src/app.py lines 39-107): the field
presence checks, the emptiness checks (werkzeug `FileStorage` truthiness
is non-emptiness of its filename), the template extension check, then
`afterValidation`. -/
def handlerBody (req : Request) (fs0 : FS) (c0 : Nat) : Except ErrSt HResult :=
  match req.template, req.contentFiles with
  | none, _ => Except.ok ⟨Response.json 400 msgMissing, fs0, c0, []⟩
  | some _, none => Except.ok ⟨Response.json 400 msgMissing, fs0, c0, []⟩
  | some tf, some cfs =>
    if tf.filename = [] ∨ cfs = [] then
      Except.ok ⟨Response.json 400 msgNoFiles, fs0, c0, []⟩
    else if allowedFile tf.filename then
      afterValidation tf cfs fs0 c0
    else
      Except.ok ⟨Response.json 400 msgTemplate, fs0, c0, []⟩

/-- The top-level `except Exception as e:` block (src/app.py lines
109-116): attempt a cleanup of every tracked path and answer 500 with the
exception message. -/
def catchErr : Except ErrSt HResult → HResult
  | Except.ok r => r
  | Except.error e =>
    ⟨Response.json 500 e.msg,
      cleanupFiles e.fs (e.uploadedPaths ++ e.mergedPaths.map Prod.snd),
      e.ctr, e.savedLog⟩

/-- `merge_docx`, the full handler of POST /api/merge-docx (src/app.py
lines 36-116). -/
def mergeDocx (req : Request) (fs0 : FS) (c0 : Nat) : HResult :=
  catchErr (handlerBody req fs0 c0)

/-- Number of merged documents a response hands to the client: one for a
direct download, the entry count for a zip, none for an error. -/
def mergedOutputCount : Response → Nat
  | Response.json _ _ => 0
  | Response.file r =>
    match r.body with
    | Body.fileBytes _ => 1
    | Body.zipArchive es => es.length

/-- A content file is well-formed when, if its name passes the extension
check, its bytes parse as a document. -/
def contentOk (cf : ReqFile) : Prop :=
  allowedFile cf.filename = true → ∃ d, cf.content = FileData.docx d

/-- Invariant of each new `merged_paths` entry produced by a successful
content loop, relative to the final filesystem `fsF`, the final counter
`ctrF` and the original template document `td`: the offered filename is
the computed output base name, the on-disk path is a timestamped
merge-output path, and the saved bytes are the composition of the original
template with the content file's document. -/
def mergedEntryOk (fsF : FS) (ctrF : Nat) (td : Doc)
    (m : List Char × FPath) (cf : ReqFile) : Prop :=
  m.1 = outBasename cf.filename ∧ oldPath ctrF m.2 ∧
  ∃ d, cf.content = FileData.docx d ∧
    lookupFS fsF m.2 = some (FileData.docx (mergeDocuments td d))

/-- Concrete documents, files and requests used by the closed evaluation
theorems below. -/
def emptyDoc : Doc := Doc.mk []

/-- A well-formed template upload. -/
def tplW : ReqFile := ⟨"t.docx".data, FileData.docx emptyDoc⟩

/-- A well-formed content upload. -/
def cntW1 : ReqFile := ⟨"a.docx".data, FileData.docx emptyDoc⟩

/-- A second well-formed content upload. -/
def cntW2 : ReqFile := ⟨"b.docx".data, FileData.docx emptyDoc⟩

/-- A content upload whose filename fails the extension check. -/
def cntBad : ReqFile := ⟨"c.txt".data, FileData.invalid 7⟩

/-- A request whose content file has an upper-case `.DOCX` extension. -/
def reqC2 : Request := ⟨some tplW, some [⟨"a.DOCX".data, FileData.docx emptyDoc⟩]⟩

/-- A request whose template bytes do not parse as a document. -/
def reqC6 : Request := ⟨some ⟨"t.docx".data, FileData.invalid 0⟩, some [cntW1]⟩

/-- A request whose template field carries an empty filename. -/
def reqC7 : Request := ⟨some ⟨[], FileData.invalid 0⟩, some [cntW1]⟩

/-- A request with a valid template and one content entry with an empty
filename, the shape a browser submits when no content file is chosen. -/
def reqC8 : Request := ⟨some tplW, some [⟨[], FileData.invalid 1⟩]⟩

/-- Fallback error record. -/
def errFallback : ErrSt := ⟨"", [], [], [], 0, []⟩

/-- The error value of an erroring handler body, with a fallback for the
success case; lets a closed theorem name the exception data of a concrete
run. -/
def errOf : Except ErrSt HResult → ErrSt
  | Except.error e => e
  | Except.ok _ => errFallback

/-- The exception data of the request with the corrupt template. -/
def errC6 : ErrSt := errOf (handlerBody reqC6 [] 0)

/-- A pre-existing file outside the generated-name space. -/
def keepPath : FPath := "keep.txt".data

/-- A filesystem holding only that pre-existing file. -/
def fsKeep : FS := [(keepPath, FileData.invalid 3)]

/-- Concrete paths and filesystems for two successive merge calls on the
same template and content files. -/
def tpW9 : FPath := upPath (tsName 0 [])

/-- The saved content path of the concrete double-merge run. -/
def cpW9 : FPath := upPath (tsName 1 [])

/-- The starting filesystem of the concrete double-merge run. -/
def fsW9 : FS :=
  writeFS (writeFS [] tpW9 (FileData.docx emptyDoc)) cpW9 (FileData.docx emptyDoc)

/-- The document saved by each of the two merge calls. -/
def mergedW9 : FileData := FileData.docx (mergeDocuments emptyDoc emptyDoc)

/-- Output path of the first merge call. -/
def op1W : FPath := upPath (mergedName 2 (secureFilename []))

/-- Filesystem after the first merge call. -/
def fs1W : FS := writeFS fsW9 op1W mergedW9

/-- Output path of the second merge call. -/
def op2W : FPath := upPath (mergedName 3 (secureFilename []))

/-- Filesystem after the second merge call. -/
def fs2W : FS := writeFS fs1W op2W mergedW9

/-! Lemmas about the filesystem model. -/

theorem lookup_removeFS (fs : FS) (p q : FPath) :
    lookupFS (removeFS fs p) q = if q = p then none else lookupFS fs q := by
  induction fs with
  | nil => simp [removeFS, lookupFS]
  | cons e fs ih =>
    by_cases h1 : e.1 = p
    · have hrm : removeFS (e :: fs) p = removeFS fs p := by simp [removeFS, h1]
      rw [hrm, ih]
      by_cases h2 : q = p
      · simp [h2]
      · have h3 : ¬ e.1 = q := fun h => h2 (h.symm.trans h1)
        simp [h2, lookupFS, h3]
    · have hrm : removeFS (e :: fs) p = e :: removeFS fs p := by simp [removeFS, h1]
      rw [hrm]
      simp only [lookupFS]
      rw [ih]
      by_cases h2 : q = p
      · have h3 : ¬ e.1 = q := fun h => h1 (h.trans h2)
        simp [h1, h2, h3]
      · by_cases h4 : e.1 = q <;> simp [h2, h4]

theorem lookup_writeFS_self (fs : FS) (p : FPath) (d : FileData) :
    lookupFS (writeFS fs p d) p = some d := by
  simp [writeFS, lookupFS]

theorem lookup_writeFS_ne (fs : FS) (p q : FPath) (d : FileData) (h : q ≠ p) :
    lookupFS (writeFS fs p d) q = lookupFS fs q := by
  have : p ≠ q := fun hh => h hh.symm
  simp [writeFS, lookupFS, this, lookup_removeFS, h]

theorem mem_writeFS (fs : FS) (p q : FPath) (d : FileData)
    (h : memFS (writeFS fs p d) q = true) : q = p ∨ memFS fs q = true := by
  by_cases hq : q = p
  · exact Or.inl hq
  · right
    rw [memFS, lookup_writeFS_ne fs p q d hq] at h
    exact h

theorem lookup_cleanupFiles (ps : List FPath) (fs : FS) (q : FPath) :
    lookupFS (cleanupFiles fs ps) q = if q ∈ ps then none else lookupFS fs q := by
  induction ps generalizing fs with
  | nil => simp [cleanupFiles]
  | cons p rest ih =>
    simp only [cleanupFiles]
    rw [ih, lookup_removeFS]
    by_cases h1 : q = p
    · simp [h1, List.mem_cons]
    · by_cases h2 : q ∈ rest <;> simp [h1, h2, List.mem_cons]

theorem mem_cleanupFiles (ps : List FPath) (fs : FS) (q : FPath)
    (h : memFS (cleanupFiles fs ps) q = true) : memFS fs q = true ∧ q ∉ ps := by
  rw [memFS, lookup_cleanupFiles] at h
  by_cases hq : q ∈ ps
  · simp [hq] at h
  · rw [if_neg hq] at h
    exact ⟨h, hq⟩

/-! Lemmas about the decimal timestamp strings. -/

theorem digitChar_isDigit (d : Nat) : (digitChar d).isDigit = true := by
  unfold digitChar
  repeat' split
  all_goals decide

theorem digitVal_digitChar (d : Nat) (h : d < 10) : digitVal (digitChar d) = d := by
  interval_cases d <;> decide

theorem natDigitsGo_ne_nil (fuel n : Nat) : natDigitsGo (fuel + 1) n ≠ [] := by
  unfold natDigitsGo
  split <;> simp

theorem natDigits_ne_nil (n : Nat) : natDigits n ≠ [] := natDigitsGo_ne_nil n n

theorem mem_natDigitsGo_isDigit (fuel : Nat) :
    ∀ n c, c ∈ natDigitsGo fuel n → c.isDigit = true := by
  induction fuel with
  | zero => intro n c h; simp [natDigitsGo] at h
  | succ fuel ih =>
    intro n c h
    unfold natDigitsGo at h
    split at h
    · rw [List.mem_singleton] at h
      exact h ▸ digitChar_isDigit n
    · rw [List.mem_append, List.mem_singleton] at h
      rcases h with h | h
      · exact ih _ c h
      · exact h ▸ digitChar_isDigit (n % 10)

theorem mem_natDigits_isDigit (n : Nat) (c : Char) (h : c ∈ natDigits n) :
    c.isDigit = true := mem_natDigitsGo_isDigit (n + 1) n c h

theorem und_not_mem_natDigits (n : Nat) : '_' ∉ natDigits n := by
  intro h
  have := mem_natDigits_isDigit n '_' h
  simp [Char.isDigit] at this

theorem decode_append_digit (a : List Char) (c : Char) :
    decodeDigits (a ++ [c]) = 10 * decodeDigits a + digitVal c := by
  simp [decodeDigits, List.foldl_append]

theorem decode_natDigitsGo (fuel : Nat) :
    ∀ n, n < fuel → decodeDigits (natDigitsGo fuel n) = n := by
  induction fuel with
  | zero => intro n h; omega
  | succ fuel ih =>
    intro n h
    unfold natDigitsGo
    split
    · rename_i h10
      simp [decodeDigits, digitVal_digitChar n h10]
    · rename_i h10
      push_neg at h10
      have hdiv : n / 10 < n := Nat.div_lt_self (by omega) (by omega)
      rw [decode_append_digit, ih (n / 10) (by omega),
        digitVal_digitChar (n % 10) (Nat.mod_lt n (by omega))]
      omega

theorem decode_natDigits (n : Nat) : decodeDigits (natDigits n) = n :=
  decode_natDigitsGo (n + 1) n (Nat.lt_succ_self n)

theorem natDigits_inj {m n : Nat} (h : natDigits m = natDigits n) : m = n := by
  have := decode_natDigits m
  rw [h, decode_natDigits] at this
  omega

/-! Distinctness of the generated temp-file names. -/

theorem appendCancelLeft {a b c : List Char} (h : a ++ b = a ++ c) : b = c := by
  induction a with
  | nil => exact h
  | cons x a ih =>
    rw [List.cons_append, List.cons_append] at h
    exact ih (List.tail_eq_of_cons_eq h)

theorem splitUnd : ∀ (l1 l2 x y : List Char), '_' ∉ l1 → '_' ∉ l2 →
    l1 ++ '_' :: x = l2 ++ '_' :: y → l1 = l2 ∧ x = y := by
  intro l1
  induction l1 with
  | nil =>
    intro l2 x y _ h2 h
    match l2 with
    | [] => simpa using h
    | c :: l2' =>
      rw [List.nil_append, List.cons_append] at h
      have hc : c = '_' := (List.head_eq_of_cons_eq h).symm
      exact absurd (hc ▸ List.mem_cons_self c l2') h2
  | cons c l1' ih =>
    intro l2 x y h1 h2 h
    match l2 with
    | [] =>
      rw [List.nil_append, List.cons_append] at h
      have hc : c = '_' := List.head_eq_of_cons_eq h
      exact absurd (hc ▸ List.mem_cons_self c l1') h1
    | c2 :: l2' =>
      rw [List.cons_append, List.cons_append] at h
      have hc : c = c2 := List.head_eq_of_cons_eq h
      have ht := ih l2' x y (fun hm => h1 (List.mem_cons_of_mem c hm))
        (fun hm => h2 (List.mem_cons_of_mem c2 hm)) (List.tail_eq_of_cons_eq h)
      exact ⟨by rw [hc, ht.1], ht.2⟩

theorem tsName_inj {i j : Nat} {a b : List Char} (h : tsName i a = tsName j b) :
    i = j ∧ a = b := by
  unfold tsName at h
  have := splitUnd (natDigits i) (natDigits j) a b
    (und_not_mem_natDigits i) (und_not_mem_natDigits j) h
  exact ⟨natDigits_inj this.1, this.2⟩

theorem mergedName_inj {i j : Nat} {a b : List Char}
    (h : mergedName i a = mergedName j b) : i = j ∧ a = b := by
  unfold mergedName at h
  have h2 : tsName i a = tsName j b := appendCancelLeft (a := mergedPfx) h
  exact tsName_inj h2

theorem tsName_ne_mergedName (i j : Nat) (a b : List Char) :
    tsName i a ≠ mergedName j b := by
  intro h
  obtain ⟨c, t, hct⟩ := List.exists_cons_of_ne_nil (natDigits_ne_nil i)
  rw [tsName, hct, mergedName, mergedPfx] at h
  rw [List.cons_append, List.cons_append] at h
  have hc : c = 'm' := List.head_eq_of_cons_eq h
  have hd := mem_natDigits_isDigit i c (hct ▸ List.mem_cons_self c t)
  rw [hc] at hd
  simp [Char.isDigit] at hd

theorem upPath_inj {a b : List Char} (h : upPath a = upPath b) : a = b := by
  unfold upPath at h
  exact List.tail_eq_of_cons_eq (appendCancelLeft h)

theorem old_mono {n n' : Nat} {p : FPath} (hle : n ≤ n') (h : oldPath n p) :
    oldPath n' p := by
  obtain ⟨k, r, hk, hor⟩ := h
  exact ⟨k, r, lt_of_lt_of_le hk hle, hor⟩

theorem not_old_upTs {n m : Nat} (x : List Char) (hle : n ≤ m) :
    ¬ oldPath n (upPath (tsName m x)) := by
  rintro ⟨k, r, hk, hor | hor⟩
  · have := (tsName_inj (upPath_inj hor)).1
    omega
  · exact tsName_ne_mergedName m k x r (upPath_inj hor)

theorem not_old_upMerged {n m : Nat} (x : List Char) (hle : n ≤ m) :
    ¬ oldPath n (upPath (mergedName m x)) := by
  rintro ⟨k, r, hk, hor | hor⟩
  · exact tsName_ne_mergedName k m r x (upPath_inj hor).symm
  · have := (mergedName_inj (upPath_inj hor)).1
    omega

theorem old_ne_upTs {n m : Nat} {p : FPath} (x : List Char)
    (hold : oldPath n p) (hle : n ≤ m) : p ≠ upPath (tsName m x) :=
  fun heq => not_old_upTs x hle (heq ▸ hold)

theorem old_ne_upMerged {n m : Nat} {p : FPath} (x : List Char)
    (hold : oldPath n p) (hle : n ≤ m) : p ≠ upPath (mergedName m x) :=
  fun heq => not_old_upMerged x hle (heq ▸ hold)

/-! Characterisation of `mergeDocumentsProperly` and page-break counting. -/

theorem merge_ok_shape {fs : FS} {c : Nat} {tp cp : FPath} {ob : List Char}
    {op : FPath} {fs' : FS} {c' : Nat}
    (h : mergeDocumentsProperly fs c tp cp ob = Except.ok (op, fs', c')) :
    ∃ td cd, lookupFS fs tp = some (FileData.docx td) ∧
      lookupFS fs cp = some (FileData.docx cd) ∧
      op = upPath (mergedName c (secureFilename ob)) ∧
      fs' = writeFS fs op (FileData.docx (mergeDocuments td cd)) ∧
      c' = c + 1 := by
  unfold mergeDocumentsProperly loadDocument at h
  cases e1 : lookupFS fs tp with
  | none => rw [e1] at h; simp at h
  | some fd =>
    cases fd with
    | invalid t => rw [e1] at h; simp at h
    | docx td =>
      rw [e1] at h
      cases e2 : lookupFS fs cp with
      | none => rw [e2] at h; simp at h
      | some fd2 =>
        cases fd2 with
        | invalid t => rw [e2] at h; simp at h
        | docx cd =>
          rw [e2] at h
          simp only [Except.ok.injEq, Prod.mk.injEq] at h
          exact ⟨td, cd, rfl, rfl, h.1.symm, by rw [← h.1, ← h.2.1], h.2.2.symm⟩

theorem breaksInPara_append_break (l : Para) :
    breaksInPara (l ++ [RunElem.pageBreak]) = breaksInPara l + 1 := by
  induction l with
  | nil => rfl
  | cons r rs ih => cases r <;> simp [breaksInPara, ih]

theorem countBreaks_mergeDocuments (t c : Doc) :
    countBreaks (mergeDocuments t c) = countBreaks t + countBreaks c + 1 := by
  unfold mergeDocuments countBreaks
  by_cases h : t.paragraphs = []
  · simp [h, breaksInPara]
    omega
  · simp only [if_neg h]
    have hd := List.dropLast_append_getLast h
    have hgl : t.paragraphs.getLastD [] = t.paragraphs.getLast h := by
      rw [List.getLastD_eq_getLast?, List.getLast?_eq_getLast _ h]
      rfl
    conv_rhs => rw [← hd]
    rw [hgl]
    simp [List.map_append, List.sum_append, breaksInPara_append_break]
    omega

/-! Lemmas about the extension check and the rsplit-based stem. -/

theorem endsDocx_iff (s : List Char) : endsDocx s = true ↔ ∃ a, s = a ++ docxPat := by
  unfold endsDocx
  rw [decide_eq_true_iff]
  constructor
  · intro h
    exact ⟨s.take (s.length - 5), by rw [← h, List.take_append_drop]⟩
  · rintro ⟨a, rfl⟩
    have hl : (a ++ docxPat).length = a.length + 5 := by simp [docxPat]
    rw [hl]
    have h5 : a.length + 5 - 5 = a.length := by omega
    rw [h5, List.drop_left]

theorem rsplit_some_len : ∀ (s p : List Char), rsplitTail s = some p → 5 ≤ s.length := by
  intro s
  induction s with
  | nil => intro p h; simp [rsplitTail] at h
  | cons c cs ih =>
    intro p h
    unfold rsplitTail at h
    cases e : rsplitTail cs with
    | some p' =>
      have := ih p' e
      simp [List.length_cons]
      omega
    | none =>
      rw [e] at h
      by_cases ht : (c :: cs).take 5 = docxPat
      · have hlen : ((c :: cs).take 5).length = 5 := by rw [ht]; rfl
        rw [List.length_take] at hlen
        omega
      · rw [if_neg ht] at h
        simp at h

theorem rsplit_of_endsDocx : ∀ s : List Char, endsDocx s = true →
    rsplitTail s = some (s.take (s.length - 5)) := by
  intro s
  induction s with
  | nil => intro h; simp [endsDocx, docxPat] at h
  | cons c cs ih =>
    intro h
    obtain ⟨a, hs⟩ := (endsDocx_iff (c :: cs)).1 h
    have hlens : (c :: cs).length = a.length + 5 := by rw [hs]; simp [docxPat]
    by_cases hlen : 5 ≤ cs.length
    · have hane : a ≠ [] := by
        intro h0
        rw [h0] at hlens
        simp at hlens
        omega
      obtain ⟨c2, a', ha⟩ := List.exists_cons_of_ne_nil hane
      rw [ha, List.cons_append] at hs
      have hcs : cs = a' ++ docxPat := List.tail_eq_of_cons_eq hs
      have hends : endsDocx cs = true := (endsDocx_iff cs).2 ⟨a', hcs⟩
      have hr := ih hends
      unfold rsplitTail
      rw [hr]
      have harith : (c :: cs).length - 5 = (cs.length - 5) + 1 := by
        simp [List.length_cons]
        omega
      rw [harith, List.take_succ_cons]
      simp
    · have ha0 : a = [] := by
        have : cs.length + 1 = a.length + 5 := by
          rw [← hlens]
          rfl
        have : a.length = 0 := by omega
        exact List.length_eq_zero.1 this
      rw [ha0, List.nil_append] at hs
      have hnone : rsplitTail cs = none := by
        cases e : rsplitTail cs with
        | none => rfl
        | some p' =>
          have := rsplit_some_len cs p' e
          omega
      unfold rsplitTail
      rw [hnone]
      have htake : (c :: cs).take 5 = docxPat := by
        rw [hs]
        exact List.take_of_length_le (by rw [← hs, hlens, ha0]; simp)
      rw [if_pos htake]
      have : (c :: cs).length - 5 = 0 := by
        rw [hlens, ha0]
        simp
      rw [this, List.take_zero]

/-! The content loop on well-formed inputs. -/

theorem merge_step (fs : FS) (c : Nat) (tp cp : FPath) (ob : List Char) (td cd : Doc)
    (h1 : lookupFS fs tp = some (FileData.docx td))
    (h2 : lookupFS fs cp = some (FileData.docx cd)) :
    mergeDocumentsProperly fs c tp cp ob =
      Except.ok (upPath (mergedName c (secureFilename ob)),
        writeFS fs (upPath (mergedName c (secureFilename ob)))
          (FileData.docx (mergeDocuments td cd)), c + 1) := by
  unfold mergeDocumentsProperly loadDocument
  rw [h1, h2]

theorem processContent_skip : ∀ (tp : FPath) (cfs : List ReqFile) (st : HState),
    (∀ cf ∈ cfs, allowedFile cf.filename = false) →
    processContent tp cfs st = Except.ok st := by
  intro tp cfs
  induction cfs with
  | nil => intro st h; rfl
  | cons cf rest ih =>
    intro st h
    have hcf : ¬ (allowedFile cf.filename = true) := by
      rw [h cf (List.mem_cons_self cf rest)]
      simp
    simp only [processContent]
    rw [if_neg hcf]
    exact ih st (fun c hm => h c (List.mem_cons_of_mem cf hm))

theorem processContent_cons_ok (tp : FPath) (cf : ReqFile) (rest : List ReqFile)
    (st : HState) (td cd : Doc)
    (hall : allowedFile cf.filename = true)
    (hlook : lookupFS st.fs tp = some (FileData.docx td))
    (hcd : cf.content = FileData.docx cd)
    (hne : tp ≠ upPath (tsName st.ctr (secureFilename cf.filename))) :
    processContent tp (cf :: rest) st = processContent tp rest
      ⟨writeFS (writeFS st.fs (upPath (tsName st.ctr (secureFilename cf.filename))) cf.content)
          (upPath (mergedName (st.ctr + 1) (secureFilename (outBasename cf.filename))))
          (FileData.docx (mergeDocuments td cd)),
        st.ctr + 1 + 1,
        st.uploadedPaths ++ [upPath (tsName st.ctr (secureFilename cf.filename))],
        st.mergedPaths ++ [(outBasename cf.filename,
          upPath (mergedName (st.ctr + 1) (secureFilename (outBasename cf.filename))))],
        (st.savedLog ++ [upPath (tsName st.ctr (secureFilename cf.filename))]) ++
          [upPath (mergedName (st.ctr + 1) (secureFilename (outBasename cf.filename)))]⟩ := by
  have hlook1 : lookupFS
      (writeFS st.fs (upPath (tsName st.ctr (secureFilename cf.filename))) cf.content) tp
      = some (FileData.docx td) := by
    rw [lookup_writeFS_ne _ _ _ _ hne]
    exact hlook
  have hlookc : lookupFS
      (writeFS st.fs (upPath (tsName st.ctr (secureFilename cf.filename))) cf.content)
      (upPath (tsName st.ctr (secureFilename cf.filename))) = some (FileData.docx cd) := by
    rw [lookup_writeFS_self, hcd]
  simp only [processContent]
  rw [if_pos hall]
  rw [merge_step _ (st.ctr + 1) tp _ (outBasename cf.filename) td cd hlook1 hlookc]

theorem processRun : ∀ (cfs : List ReqFile) (tp : FPath) (td : Doc) (st : HState),
    oldPath st.ctr tp →
    lookupFS st.fs tp = some (FileData.docx td) →
    (∀ cf ∈ cfs, contentOk cf) →
    ∃ st', processContent tp cfs st = Except.ok st' ∧
      st.ctr ≤ st'.ctr ∧
      (∀ p, oldPath st.ctr p → lookupFS st'.fs p = lookupFS st.fs p) ∧
      ∃ news, st'.mergedPaths = st.mergedPaths ++ news ∧
        List.Forall₂ (mergedEntryOk st'.fs st'.ctr td) news
          (cfs.filter (fun cf => allowedFile cf.filename)) := by
  intro cfs
  induction cfs with
  | nil =>
    intro tp td st _ _ _
    exact ⟨st, rfl, le_refl _, fun p _ => rfl, [], by simp, List.Forall₂.nil⟩
  | cons cf rest ih =>
    intro tp td st htp hlook hok
    by_cases hall : allowedFile cf.filename = true
    · obtain ⟨cd, hcd⟩ := hok cf (List.mem_cons_self cf rest) hall
      have hne : tp ≠ upPath (tsName st.ctr (secureFilename cf.filename)) :=
        old_ne_upTs _ htp (le_refl _)
      have hnem : tp ≠ upPath (mergedName (st.ctr + 1) (secureFilename (outBasename cf.filename))) :=
        old_ne_upMerged _ htp (Nat.le_succ _)
      rw [processContent_cons_ok tp cf rest st td cd hall hlook hcd hne]
      have hlook2 : lookupFS
          (writeFS (writeFS st.fs (upPath (tsName st.ctr (secureFilename cf.filename))) cf.content)
            (upPath (mergedName (st.ctr + 1) (secureFilename (outBasename cf.filename))))
            (FileData.docx (mergeDocuments td cd))) tp = some (FileData.docx td) := by
        rw [lookup_writeFS_ne _ _ _ _ hnem, lookup_writeFS_ne _ _ _ _ hne]
        exact hlook
      obtain ⟨st', h1, h2, h3, news', h4, h5⟩ :=
        ih tp td
          ⟨writeFS (writeFS st.fs (upPath (tsName st.ctr (secureFilename cf.filename))) cf.content)
              (upPath (mergedName (st.ctr + 1) (secureFilename (outBasename cf.filename))))
              (FileData.docx (mergeDocuments td cd)),
            st.ctr + 1 + 1,
            st.uploadedPaths ++ [upPath (tsName st.ctr (secureFilename cf.filename))],
            st.mergedPaths ++ [(outBasename cf.filename,
              upPath (mergedName (st.ctr + 1) (secureFilename (outBasename cf.filename))))],
            (st.savedLog ++ [upPath (tsName st.ctr (secureFilename cf.filename))]) ++
              [upPath (mergedName (st.ctr + 1) (secureFilename (outBasename cf.filename)))]⟩
          (old_mono (by dsimp only; omega) htp) hlook2
          (fun c hm => hok c (List.mem_cons_of_mem cf hm))
      dsimp only at h1 h2 h3 h4
      refine ⟨st', h1, by omega, ?_, ?_⟩
      · intro p hp
        rw [h3 p (old_mono (by omega) hp)]
        rw [lookup_writeFS_ne _ _ _ _ (old_ne_upMerged _ hp (Nat.le_succ _)),
          lookup_writeFS_ne _ _ _ _ (old_ne_upTs _ hp (le_refl _))]
      · refine ⟨(outBasename cf.filename,
          upPath (mergedName (st.ctr + 1) (secureFilename (outBasename cf.filename)))) :: news',
          ?_, ?_⟩
        · rw [h4]
          simp
        · have hfil : (cf :: rest).filter (fun c => allowedFile c.filename)
              = cf :: rest.filter (fun c => allowedFile c.filename) := by
            simp [List.filter_cons, hall]
          rw [hfil]
          refine List.Forall₂.cons ?_ h5
          refine ⟨rfl, ?_, cd, hcd, ?_⟩
          · exact ⟨st.ctr + 1, secureFilename (outBasename cf.filename),
              by omega, Or.inr rfl⟩
          · rw [h3 _ ⟨st.ctr + 1, secureFilename (outBasename cf.filename),
              by omega, Or.inr rfl⟩]
            rw [lookup_writeFS_self]
    · have hpc : processContent tp (cf :: rest) st = processContent tp rest st := by
        simp only [processContent]
        rw [if_neg hall]
      obtain ⟨st', h1, h2, h3, news, h4, h5⟩ :=
        ih tp td st htp hlook (fun c hm => hok c (List.mem_cons_of_mem cf hm))
      rw [hpc]
      refine ⟨st', h1, h2, h3, news, h4, ?_⟩
      have hfil : (cf :: rest).filter (fun c => allowedFile c.filename)
          = rest.filter (fun c => allowedFile c.filename) := by
        simp [List.filter_cons, hall]
      rw [hfil]
      exact h5

/-- Every file present after the content loop was either present before
the loop or is tracked in `uploaded_paths` or `merged_paths`; both
tracking lists only grow.  Holds on both the normal and the exceptional
exit of the loop. -/
theorem processDom : ∀ (cfs : List ReqFile) (tp : FPath) (st : HState),
    (∀ st', processContent tp cfs st = Except.ok st' →
      (∀ q, memFS st'.fs q = true →
        memFS st.fs q = true ∨ q ∈ st'.uploadedPaths ∨ q ∈ st'.mergedPaths.map Prod.snd) ∧
      (∀ x ∈ st.uploadedPaths, x ∈ st'.uploadedPaths) ∧
      (∀ x ∈ st.mergedPaths, x ∈ st'.mergedPaths)) ∧
    (∀ e, processContent tp cfs st = Except.error e →
      (∀ q, memFS e.fs q = true →
        memFS st.fs q = true ∨ q ∈ e.uploadedPaths ∨ q ∈ e.mergedPaths.map Prod.snd) ∧
      (∀ x ∈ st.uploadedPaths, x ∈ e.uploadedPaths) ∧
      (∀ x ∈ st.mergedPaths, x ∈ e.mergedPaths)) := by
  intro cfs
  induction cfs with
  | nil =>
    intro tp st
    constructor
    · intro st' h
      have hst : st = st' := by simpa [processContent] using h
      subst hst
      exact ⟨fun q hq => Or.inl hq, fun x hx => hx, fun x hx => hx⟩
    · intro e h
      simp [processContent] at h
  | cons cf rest ih =>
    intro tp st
    by_cases hall : allowedFile cf.filename = true
    · have heq : processContent tp (cf :: rest) st =
        match mergeDocumentsProperly
            (writeFS st.fs (upPath (tsName st.ctr (secureFilename cf.filename))) cf.content)
            (st.ctr + 1) tp (upPath (tsName st.ctr (secureFilename cf.filename)))
            (outBasename cf.filename) with
        | Except.error m =>
          Except.error ⟨m,
            writeFS st.fs (upPath (tsName st.ctr (secureFilename cf.filename))) cf.content,
            st.uploadedPaths ++ [upPath (tsName st.ctr (secureFilename cf.filename))],
            st.mergedPaths, st.ctr + 1,
            st.savedLog ++ [upPath (tsName st.ctr (secureFilename cf.filename))]⟩
        | Except.ok (mp, fs2, c2) =>
          processContent tp rest ⟨fs2, c2,
            st.uploadedPaths ++ [upPath (tsName st.ctr (secureFilename cf.filename))],
            st.mergedPaths ++ [(outBasename cf.filename, mp)],
            (st.savedLog ++ [upPath (tsName st.ctr (secureFilename cf.filename))]) ++ [mp]⟩ := by
        simp only [processContent]
        rw [if_pos hall]
      cases hm : mergeDocumentsProperly
          (writeFS st.fs (upPath (tsName st.ctr (secureFilename cf.filename))) cf.content)
          (st.ctr + 1) tp (upPath (tsName st.ctr (secureFilename cf.filename)))
          (outBasename cf.filename) with
      | error m =>
        rw [hm] at heq
        constructor
        · intro st' h
          rw [heq] at h
          simp at h
        · intro e h
          rw [heq] at h
          injection h with h'
          subst h'
          refine ⟨?_, ?_, ?_⟩
          · intro q hq
            rcases mem_writeFS _ _ _ _ hq with hq1 | hq2
            · right; left
              rw [hq1]
              simp
            · exact Or.inl hq2
          · intro x hx
            simp [hx]
          · intro x hx
            exact hx
      | ok v =>
        rcases v with ⟨mp, fs2, c2⟩
        rw [hm] at heq
        obtain ⟨td, cd, hltp, hlcp, hmp, hfs2, hc2⟩ := merge_ok_shape hm
        constructor
        · intro st' h
          rw [heq] at h
          obtain ⟨hdom, hup, hmg⟩ := (ih tp _).1 st' h
          dsimp only at hdom hup hmg
          refine ⟨?_, ?_, ?_⟩
          · intro q hq
            rcases hdom q hq with hq1 | hq2 | hq3
            · rw [hfs2] at hq1
              rcases mem_writeFS _ _ _ _ hq1 with hq4 | hq5
              · right; right
                have hmem : (outBasename cf.filename, mp) ∈
                    st.mergedPaths ++ [(outBasename cf.filename, mp)] := by simp
                have h6 := hmg _ hmem
                rw [hq4]
                exact List.mem_map.2 ⟨_, h6, rfl⟩
              · rcases mem_writeFS _ _ _ _ hq5 with hq6 | hq7
                · right; left
                  have hmem : upPath (tsName st.ctr (secureFilename cf.filename)) ∈
                      st.uploadedPaths ++ [upPath (tsName st.ctr (secureFilename cf.filename))] := by
                    simp
                  rw [hq6]
                  exact hup _ hmem
                · exact Or.inl hq7
            · exact Or.inr (Or.inl hq2)
            · exact Or.inr (Or.inr hq3)
          · intro x hx
            exact hup x (by simp [hx])
          · intro x hx
            exact hmg x (by simp [hx])
        · intro e h
          rw [heq] at h
          obtain ⟨hdom, hup, hmg⟩ := (ih tp _).2 e h
          dsimp only at hdom hup hmg
          refine ⟨?_, ?_, ?_⟩
          · intro q hq
            rcases hdom q hq with hq1 | hq2 | hq3
            · rw [hfs2] at hq1
              rcases mem_writeFS _ _ _ _ hq1 with hq4 | hq5
              · right; right
                have hmem : (outBasename cf.filename, mp) ∈
                    st.mergedPaths ++ [(outBasename cf.filename, mp)] := by simp
                have h6 := hmg _ hmem
                rw [hq4]
                exact List.mem_map.2 ⟨_, h6, rfl⟩
              · rcases mem_writeFS _ _ _ _ hq5 with hq6 | hq7
                · right; left
                  have hmem : upPath (tsName st.ctr (secureFilename cf.filename)) ∈
                      st.uploadedPaths ++ [upPath (tsName st.ctr (secureFilename cf.filename))] := by
                    simp
                  rw [hq6]
                  exact hup _ hmem
                · exact Or.inl hq7
            · exact Or.inr (Or.inl hq2)
            · exact Or.inr (Or.inr hq3)
          · intro x hx
            exact hup x (by simp [hx])
          · intro x hx
            exact hmg x (by simp [hx])
    · have hpc : processContent tp (cf :: rest) st = processContent tp rest st := by
        simp only [processContent]
        rw [if_neg hall]
      rw [hpc]
      exact ih tp st

theorem cleanup_after (fs0 : FS) (tp : FPath) (d0 : FileData) (fsx : FS)
    (ups : List FPath) (mgs : List (List Char × FPath)) (del : List FPath)
    (hdom : ∀ q, memFS fsx q = true →
      memFS (writeFS fs0 tp d0) q = true ∨ q ∈ ups ∨ q ∈ mgs.map Prod.snd)
    (htp : tp ∈ ups)
    (hupdel : ∀ x ∈ ups, x ∈ del)
    (hmgdel : ∀ x ∈ mgs.map Prod.snd, x ∈ del) :
    ∀ q, memFS (cleanupFiles fsx del) q = true → memFS fs0 q = true := by
  intro q hq
  obtain ⟨hmem, hnot⟩ := mem_cleanupFiles del fsx q hq
  rcases hdom q hmem with h1 | h2 | h3
  · rcases mem_writeFS _ _ _ _ h1 with h4 | h5
    · subst h4
      exact absurd (hupdel _ htp) hnot
    · exact h5
  · exact absurd (hupdel _ h2) hnot
  · exact absurd (hmgdel _ h3) hnot

theorem readEntries_ok : ∀ (ms : List (List Char × FPath)) (cfsv : List ReqFile)
    (fsF : FS) (ctrF : Nat) (td : Doc),
    List.Forall₂ (mergedEntryOk fsF ctrF td) ms cfsv →
    ∃ es, readEntries fsF ms = Except.ok es ∧
      List.Forall₂ (fun (e : List Char × FileData) (cf : ReqFile) =>
        e.1 = outBasename cf.filename ∧
        ∃ d, cf.content = FileData.docx d ∧
          e.2 = FileData.docx (mergeDocuments td d)) es cfsv := by
  intro ms
  induction ms with
  | nil =>
    intro cfsv fsF ctrF td h
    cases h
    exact ⟨[], rfl, List.Forall₂.nil⟩
  | cons m rest ih =>
    intro cfsv fsF ctrF td h
    obtain ⟨f, p⟩ := m
    cases h with
    | cons hm hrest =>
      obtain ⟨hname, hold, d, hd, hlook⟩ := hm
      obtain ⟨es, hre, hfa⟩ := ih _ fsF ctrF td hrest
      refine ⟨(f, FileData.docx (mergeDocuments td d)) :: es, ?_, ?_⟩
      · dsimp only at hlook
        simp only [readEntries, readFile]
        rw [hlook, hre]
      · exact List.Forall₂.cons ⟨hname, d, hd, rfl⟩ hfa

theorem claimC1_after (tf : ReqFile) (cfs : List ReqFile) (fs0 : FS) (c0 : Nat) :
    ∀ q, memFS (catchErr (afterValidation tf cfs fs0 c0)).fs q = true →
      memFS fs0 q = true := by
  unfold afterValidation
  dsimp only
  generalize upPath (tsName c0 (secureFilename tf.filename)) = tp
  cases hpc : processContent tp cfs
      ⟨writeFS fs0 tp tf.content, c0 + 1, [tp], [], [tp]⟩ with
  | error e =>
    dsimp only [catchErr]
    obtain ⟨hdom, hup, hmg⟩ :=
      (processDom cfs tp ⟨writeFS fs0 tp tf.content, c0 + 1, [tp], [], [tp]⟩).2 e hpc
    dsimp only at hdom hup hmg
    exact cleanup_after fs0 tp tf.content e.fs e.uploadedPaths e.mergedPaths _
      hdom (hup tp (by simp)) (fun x hx => by simp [hx]) (fun x hx => by simp [hx])
  | ok st =>
    dsimp only
    obtain ⟨hdom, hup, hmg⟩ :=
      (processDom cfs tp ⟨writeFS fs0 tp tf.content, c0 + 1, [tp], [], [tp]⟩).1 st hpc
    dsimp only at hdom hup hmg
    unfold finishRequest
    cases hmge : st.mergedPaths with
    | nil =>
      rw [hmge] at hdom
      dsimp only [catchErr]
      exact cleanup_after fs0 tp tf.content st.fs st.uploadedPaths [] _
        hdom (hup tp (by simp)) (fun x hx => hx) (fun x hx => by simp at hx)
    | cons m tail =>
      cases tail with
      | nil =>
        rw [hmge] at hdom
        dsimp only
        cases hread : readFile st.fs m.2 with
        | error e2 =>
          dsimp only [catchErr]
          exact cleanup_after fs0 tp tf.content st.fs st.uploadedPaths [m] _
            hdom (hup tp (by simp)) (fun x hx => by simp [hx])
            (fun x hx => by simp only [List.mem_append]; exact Or.inr hx)
        | ok data =>
          dsimp only [catchErr]
          exact cleanup_after fs0 tp tf.content st.fs st.uploadedPaths [m] _
            hdom (hup tp (by simp)) (fun x hx => by simp [hx])
            (fun x hx => by simp only [List.mem_append]; exact Or.inr hx)
      | cons m2 tail2 =>
        rw [hmge] at hdom
        dsimp only
        cases hread : readEntries st.fs (m :: m2 :: tail2) with
        | error e2 =>
          dsimp only [catchErr]
          exact cleanup_after fs0 tp tf.content st.fs st.uploadedPaths (m :: m2 :: tail2) _
            hdom (hup tp (by simp)) (fun x hx => by simp [hx])
            (fun x hx => by simp only [List.mem_append]; exact Or.inr hx)
        | ok entries =>
          dsimp only [catchErr]
          exact cleanup_after fs0 tp tf.content st.fs st.uploadedPaths (m :: m2 :: tail2) _
            hdom (hup tp (by simp)) (fun x hx => by simp [hx])
            (fun x hx => by simp only [List.mem_append]; exact Or.inr hx)

/-- Claim C1: for every request to POST /api/merge-docx, on every terminal
path — success, validation failure, or exception — every file written to
the upload directory during the request (saved template upload, saved
content uploads, and merged outputs) has been deleted from disk before the
handler returns: any path with a file on disk when the handler returns
already had a file on disk when the request started. -/
theorem claimC1 (req : Request) (fs0 : FS) (c0 : Nat) :
    ∀ q, memFS (mergeDocx req fs0 c0).fs q = true → memFS fs0 q = true := by
  obtain ⟨t, cfl⟩ := req
  cases t with
  | none => intro q hq; simpa [mergeDocx, handlerBody, catchErr] using hq
  | some tf =>
    cases cfl with
    | none => intro q hq; simpa [mergeDocx, handlerBody, catchErr] using hq
    | some cfs =>
      by_cases h1 : tf.filename = [] ∨ cfs = []
      · intro q hq
        simpa [mergeDocx, handlerBody, catchErr, h1] using hq
      · by_cases h2 : allowedFile tf.filename = true
        · have hbody : mergeDocx ⟨some tf, some cfs⟩ fs0 c0
              = catchErr (afterValidation tf cfs fs0 c0) := by
            simp [mergeDocx, handlerBody, h1, h2]
          rw [hbody]
          exact claimC1_after tf cfs fs0 c0
        · intro q hq
          simpa [mergeDocx, handlerBody, catchErr, h1, h2] using hq

theorem mergeDocx_valid (tf : ReqFile) (cfs : List ReqFile) (fs0 : FS) (c0 : Nat)
    (h1 : ¬ (tf.filename = [] ∨ cfs = []))
    (h2 : allowedFile tf.filename = true) :
    mergeDocx ⟨some tf, some cfs⟩ fs0 c0 = catchErr (afterValidation tf cfs fs0 c0) := by
  simp [mergeDocx, handlerBody, h1, h2]

theorem finish_none (st : HState) (hmg : st.mergedPaths = []) :
    catchErr (finishRequest st) = ⟨Response.json 400 msgNoValid,
      cleanupFiles st.fs st.uploadedPaths, st.ctr, st.savedLog⟩ := by
  unfold finishRequest
  rw [hmg]
  rfl

theorem finish_single (st : HState) (m : List Char × FPath) (data : FileData)
    (hmg : st.mergedPaths = [m]) (hread : lookupFS st.fs m.2 = some data) :
    catchErr (finishRequest st) =
      ⟨Response.file ⟨m.1, docxMime, Body.fileBytes data⟩,
        cleanupFiles st.fs (st.uploadedPaths ++ [m].map Prod.snd),
        st.ctr, st.savedLog⟩ := by
  unfold finishRequest
  rw [hmg]
  dsimp only
  unfold readFile
  rw [hread]
  rfl

theorem finish_zip (st : HState) (m1 m2 : List Char × FPath)
    (ms : List (List Char × FPath)) (entries : List (List Char × FileData))
    (hmg : st.mergedPaths = m1 :: m2 :: ms)
    (hread : readEntries st.fs (m1 :: m2 :: ms) = Except.ok entries) :
    catchErr (finishRequest st) =
      ⟨Response.file ⟨zipName, zipMime, Body.zipArchive entries⟩,
        cleanupFiles st.fs (st.uploadedPaths ++ (m1 :: m2 :: ms).map Prod.snd),
        st.ctr, st.savedLog⟩ := by
  unfold finishRequest
  rw [hmg]
  dsimp only
  rw [hread]
  rfl

theorem exists_two_of_le_length {α : Type} {l : List α} (h : 2 ≤ l.length) :
    ∃ a b t, l = a :: b :: t := by
  cases l with
  | nil => simp at h
  | cons a l2 =>
    cases l2 with
    | nil => simp at h
    | cons b t => exact ⟨a, b, t, rfl⟩

theorem afterValidation_success (tf : ReqFile) (cfs : List ReqFile) (fs0 : FS) (c0 : Nat)
    (td : Doc) (htd : tf.content = FileData.docx td)
    (hok : ∀ cf ∈ cfs, contentOk cf) :
    ∃ st', afterValidation tf cfs fs0 c0 = finishRequest st' ∧
      List.Forall₂ (mergedEntryOk st'.fs st'.ctr td) st'.mergedPaths
        (cfs.filter (fun cf => allowedFile cf.filename)) := by
  have hold : oldPath (c0 + 1) (upPath (tsName c0 (secureFilename tf.filename))) :=
    ⟨c0, secureFilename tf.filename, Nat.lt_succ_self c0, Or.inl rfl⟩
  have hlook : lookupFS
      (writeFS fs0 (upPath (tsName c0 (secureFilename tf.filename))) tf.content)
      (upPath (tsName c0 (secureFilename tf.filename))) = some (FileData.docx td) := by
    rw [lookup_writeFS_self, htd]
  obtain ⟨st', hpc, hle, hpres, news, hnews, hfa⟩ :=
    processRun cfs (upPath (tsName c0 (secureFilename tf.filename))) td
      ⟨writeFS fs0 (upPath (tsName c0 (secureFilename tf.filename))) tf.content,
        c0 + 1, [upPath (tsName c0 (secureFilename tf.filename))], [],
        [upPath (tsName c0 (secureFilename tf.filename))]⟩
      hold hlook hok
  dsimp only at hnews
  rw [List.nil_append] at hnews
  refine ⟨st', ?_, ?_⟩
  · unfold afterValidation
    dsimp only
    rw [hpc]
  · rw [hnews]
    exact hfa

/-- Claim C3: for a request with a valid template, when exactly one
content file is successfully merged the response is that single merged
document as a direct download with the docx MIME type; when N ≥ 2 content
files are successfully merged the response is a zip archive named
`merged_documents.zip` with MIME type `application/zip` containing exactly
N entries — one per merged document, under its computed filename, holding
that merged document's bytes. -/
theorem claimC3 (tf : ReqFile) (cfs : List ReqFile) (fs0 : FS) (c0 : Nat) (td : Doc)
    (hname : tf.filename ≠ []) (hallow : allowedFile tf.filename = true)
    (htd : tf.content = FileData.docx td) (hcfs : cfs ≠ [])
    (hok : ∀ cf ∈ cfs, contentOk cf) :
    ((cfs.filter (fun cf => allowedFile cf.filename)).length = 1 →
      ∃ cf d, cfs.filter (fun cf => allowedFile cf.filename) = [cf] ∧
        cf.content = FileData.docx d ∧
        (mergeDocx ⟨some tf, some cfs⟩ fs0 c0).response =
          Response.file ⟨outBasename cf.filename, docxMime,
            Body.fileBytes (FileData.docx (mergeDocuments td d))⟩) ∧
    (2 ≤ (cfs.filter (fun cf => allowedFile cf.filename)).length →
      ∃ entries, (mergeDocx ⟨some tf, some cfs⟩ fs0 c0).response =
          Response.file ⟨zipName, zipMime, Body.zipArchive entries⟩ ∧
        List.Forall₂ (fun (e : List Char × FileData) (cf : ReqFile) =>
          e.1 = outBasename cf.filename ∧ ∃ d, cf.content = FileData.docx d ∧
            e.2 = FileData.docx (mergeDocuments td d))
          entries (cfs.filter (fun cf => allowedFile cf.filename))) := by
  have h1 : ¬ (tf.filename = [] ∨ cfs = []) := by
    rw [not_or]
    exact ⟨hname, hcfs⟩
  obtain ⟨st', hav, hfa⟩ := afterValidation_success tf cfs fs0 c0 td htd hok
  rw [mergeDocx_valid tf cfs fs0 c0 h1 hallow, hav]
  constructor
  · intro hlen1
    obtain ⟨cf, hfil⟩ := List.length_eq_one.1 hlen1
    have hlm : st'.mergedPaths.length = 1 := by
      rw [List.Forall₂.length_eq hfa, hlen1]
    obtain ⟨m, hm⟩ := List.length_eq_one.1 hlm
    rw [hfil, hm] at hfa
    cases hfa with
    | cons hmk hnil =>
      obtain ⟨hm1, hmold, d, hd, hmlook⟩ := hmk
      rw [finish_single st' m (FileData.docx (mergeDocuments td d)) hm hmlook]
      refine ⟨cf, d, hfil, hd, ?_⟩
      dsimp only
      rw [hm1]
  · intro hlen2
    have hlm : 2 ≤ st'.mergedPaths.length := by
      rw [List.Forall₂.length_eq hfa]
      exact hlen2
    obtain ⟨m1, m2, ms, hm⟩ := exists_two_of_le_length hlm
    rw [hm] at hfa
    obtain ⟨es, hre, hfa2⟩ := readEntries_ok _ _ _ _ _ hfa
    rw [finish_zip st' m1 m2 ms es hm hre]
    exact ⟨es, rfl, hfa2⟩

/-- Claim C4: content files whose filename fails the `.docx` extension
check are skipped — they are not merged and do not fail the request — and
when, after this filtering, zero content files are merged, the request
returns 400 with message `No valid .docx content files uploaded`, even
when the template itself is valid.  When at least one content file
survives the filter, the request succeeds with a file response whose
number of merged outputs equals the number of filename-valid content
files. -/
theorem claimC4 (tf : ReqFile) (cfs : List ReqFile) (fs0 : FS) (c0 : Nat) (td : Doc) :
    (tf.filename ≠ [] → allowedFile tf.filename = true → cfs ≠ [] →
      cfs.filter (fun cf => allowedFile cf.filename) = [] →
      (mergeDocx ⟨some tf, some cfs⟩ fs0 c0).response = Response.json 400 msgNoValid) ∧
    (tf.filename ≠ [] → allowedFile tf.filename = true → cfs ≠ [] →
      tf.content = FileData.docx td → (∀ cf ∈ cfs, contentOk cf) →
      cfs.filter (fun cf => allowedFile cf.filename) ≠ [] →
      ∃ fr, (mergeDocx ⟨some tf, some cfs⟩ fs0 c0).response = Response.file fr ∧
        mergedOutputCount (mergeDocx ⟨some tf, some cfs⟩ fs0 c0).response =
          (cfs.filter (fun cf => allowedFile cf.filename)).length) := by
  constructor
  · intro hname hallow hcfs hfil
    have h1 : ¬ (tf.filename = [] ∨ cfs = []) := by
      rw [not_or]
      exact ⟨hname, hcfs⟩
    rw [mergeDocx_valid tf cfs fs0 c0 h1 hallow]
    have hskip : ∀ cf ∈ cfs, allowedFile cf.filename = false := by
      intro cf hm
      have := List.filter_eq_nil_iff.1 hfil cf hm
      simpa using this
    unfold afterValidation
    dsimp only
    rw [processContent_skip _ cfs _ hskip]
    dsimp only
    rw [finish_none _ rfl]
  · intro hname hallow hcfs htd hok hfilne
    have h1 : ¬ (tf.filename = [] ∨ cfs = []) := by
      rw [not_or]
      exact ⟨hname, hcfs⟩
    obtain ⟨st', hav, hfa⟩ := afterValidation_success tf cfs fs0 c0 td htd hok
    rw [mergeDocx_valid tf cfs fs0 c0 h1 hallow, hav]
    have hpos : 0 < (cfs.filter (fun cf => allowedFile cf.filename)).length :=
      List.length_pos.2 hfilne
    by_cases hone : (cfs.filter (fun cf => allowedFile cf.filename)).length = 1
    · obtain ⟨cf, hfil⟩ := List.length_eq_one.1 hone
      have hlm : st'.mergedPaths.length = 1 := by
        rw [List.Forall₂.length_eq hfa, hone]
      obtain ⟨m, hm⟩ := List.length_eq_one.1 hlm
      rw [hfil, hm] at hfa
      cases hfa with
      | cons hmk hnil =>
        obtain ⟨hm1, hmold, d, hd, hmlook⟩ := hmk
        rw [finish_single st' m (FileData.docx (mergeDocuments td d)) hm hmlook]
        refine ⟨⟨m.1, docxMime, Body.fileBytes (FileData.docx (mergeDocuments td d))⟩,
          rfl, ?_⟩
        rw [hone]
        rfl
    · have h2 : 2 ≤ (cfs.filter (fun cf => allowedFile cf.filename)).length := by
        omega
      have hlm : 2 ≤ st'.mergedPaths.length := by
        rw [List.Forall₂.length_eq hfa]
        exact h2
      obtain ⟨m1, m2, ms, hm⟩ := exists_two_of_le_length hlm
      rw [hm] at hfa
      obtain ⟨es, hre, hfa2⟩ := readEntries_ok _ _ _ _ _ hfa
      rw [finish_zip st' m1 m2 ms es hm hre]
      refine ⟨⟨zipName, zipMime, Body.zipArchive es⟩, rfl, ?_⟩
      have := List.Forall₂.length_eq hfa2
      simpa [mergedOutputCount] using this

/-- Claim C2 is refuted at the accepted filename `a.DOCX`: the extension
check accepts it case-insensitively, but the `rsplit('.docx', 1)` step is
case-sensitive, so the offered download name keeps the original `.DOCX`
extension and merely appends the suffix, instead of replacing the
extension as the claim states. -/
theorem claimC2_cex :
    allowedFile ("a.DOCX".data) = true ∧
    (mergeDocx reqC2 [] 0).response =
      Response.file ⟨"a.DOCX_with_cover.docx".data, docxMime,
        Body.fileBytes (FileData.docx (mergeDocuments emptyDoc emptyDoc))⟩ ∧
    "a.DOCX_with_cover.docx".data ≠ specOutputName ("a.DOCX".data) :=
  ⟨by decide, by decide, by decide⟩

/-- Claim C2 (amended): the output name offered to the client is computed
from the sanitised (`secure_filename`) content filename; when that name
ends in the lower-case extension `.docx` the extension is removed and the
fixed suffix `_with_cover.docx` is appended, so exactly one `.docx`
extension remains; when the name contains no lower-case `.docx` substring
(for example an accepted name ending in `.DOCX`), the suffix is appended
after the whole sanitised filename and the original extension is left in
place. -/
theorem claimC2_amended (s : List Char) :
    (endsDocx (secureFilename s) = true →
      outBasename s = (secureFilename s).take ((secureFilename s).length - 5)
        ++ withCoverSuffix) ∧
    (rsplitTail (secureFilename s) = none →
      outBasename s = secureFilename s ++ withCoverSuffix) := by
  constructor
  · intro h
    unfold outBasename stemOf
    rw [rsplit_of_endsDocx _ h]
  · intro h
    unfold outBasename stemOf
    rw [h]

theorem claimC2_witness :
    outBasename ("a.docx".data) =
      (secureFilename ("a.docx".data)).take ((secureFilename ("a.docx".data)).length - 5)
        ++ withCoverSuffix :=
  (claimC2_amended ("a.docx".data)).1 (by decide)

/-- Claim C5: in the merge pipeline, if the loaded template document has
at least one paragraph its last paragraph is selected, otherwise a new
paragraph is created; in either case a page-break marker is appended to
that paragraph, and the content document's paragraphs are composed after
the template's, so the appended content begins on a new page. -/
theorem claimC5 (t c : Doc) :
    (t.paragraphs = [] →
      (mergeDocuments t c).paragraphs = [RunElem.pageBreak] :: c.paragraphs) ∧
    (t.paragraphs ≠ [] →
      (mergeDocuments t c).paragraphs =
        t.paragraphs.dropLast ++
          (t.paragraphs.getLastD [] ++ [RunElem.pageBreak]) :: c.paragraphs) := by
  constructor
  · intro h
    unfold mergeDocuments
    rw [if_pos h]
    rfl
  · intro h
    unfold mergeDocuments
    rw [if_neg h]
    dsimp only
    simp [List.append_assoc]

theorem claimC5_witness :
    (mergeDocuments (Doc.mk [[RunElem.text ['h']]]) (Doc.mk [[RunElem.text ['b']]])).paragraphs =
      [[RunElem.text ['h'], RunElem.pageBreak], [RunElem.text ['b']]] := by
  rw [(claimC5 (Doc.mk [[RunElem.text ['h']]]) (Doc.mk [[RunElem.text ['b']]])).2 (by decide)]
  rfl

/-- Claim C6: every exception raised inside the request handler body is
caught at the top level and results in a 500 response whose JSON body
carries the exception's message; the returned filesystem is the result of
the best-effort cleanup of all tracked temp paths; and the cleanup step is
a total function that removes exactly the given paths while ignoring
nonexistent ones, so it never raises. -/
theorem claimC6 (req : Request) (fs0 : FS) (c0 : Nat) (e : ErrSt)
    (h : handlerBody req fs0 c0 = Except.error e) :
    (mergeDocx req fs0 c0).response = Response.json 500 e.msg ∧
    (mergeDocx req fs0 c0).fs =
      cleanupFiles e.fs (e.uploadedPaths ++ e.mergedPaths.map Prod.snd) ∧
    (∀ (fs : FS) (ps : List FPath) (q : FPath),
      lookupFS (cleanupFiles fs ps) q = if q ∈ ps then none else lookupFS fs q) := by
  refine ⟨?_, ?_, fun fs ps q => lookup_cleanupFiles ps fs q⟩
  · unfold mergeDocx
    rw [h]
    rfl
  · unfold mergeDocx
    rw [h]
    rfl

theorem claimC6_witness :
    (mergeDocx reqC6 [] 0).response = Response.json 500 errC6.msg :=
  (claimC6 reqC6 [] 0 errC6 rfl).1

/-- Claim C7 is refuted at the empty template filename: werkzeug
`FileStorage` truthiness is filename non-emptiness, so an empty template
filename is caught by the earlier `if not template_file` check and the 400
message is `No files provided`, not `Template must be a .docx file` as the
claim states for every filename failing the extension check. -/
theorem claimC7_cex :
    allowedFile ([] : List Char) = false ∧
    (mergeDocx reqC7 [] 0).response = Response.json 400 msgNoFiles ∧
    msgNoFiles ≠ msgTemplate :=
  ⟨by decide, by decide, by decide⟩

/-- Claim C7 (amended): a request whose template filename is non-empty but
does not end in `.docx` under a case-insensitive comparison is rejected
with 400 `Template must be a .docx file` before anything is saved or
merged — the filesystem, counter and save trace are untouched; a request
whose template filename is empty is rejected earlier with 400
`No files provided`, likewise before anything is saved; conversely every
non-empty filename ending in the extension in any letter case passes the
check. -/
theorem claimC7_amended (tf : ReqFile) (cfs : List ReqFile) (fs0 : FS) (c0 : Nat) :
    (tf.filename ≠ [] → cfs ≠ [] → allowedFile tf.filename = false →
      mergeDocx ⟨some tf, some cfs⟩ fs0 c0 =
        ⟨Response.json 400 msgTemplate, fs0, c0, []⟩) ∧
    (tf.filename = [] →
      mergeDocx ⟨some tf, some cfs⟩ fs0 c0 =
        ⟨Response.json 400 msgNoFiles, fs0, c0, []⟩) ∧
    (∀ s : List Char, s ≠ [] → endsDocx (lowerChars s) = true →
      allowedFile s = true) := by
  refine ⟨?_, ?_, ?_⟩
  · intro hname hcfs hbad
    have h1 : ¬ (tf.filename = [] ∨ cfs = []) := by
      rw [not_or]
      exact ⟨hname, hcfs⟩
    have h2 : ¬ (allowedFile tf.filename = true) := by
      rw [hbad]
      simp
    simp [mergeDocx, handlerBody, h1, h2, catchErr]
  · intro hname
    simp [mergeDocx, handlerBody, Or.inl hname, catchErr]
  · intro s hs hend
    cases s with
    | nil => exact absurd rfl hs
    | cons a t =>
      unfold allowedFile
      rw [hend]
      rfl

theorem claimC7_witness :
    mergeDocx ⟨some cntBad, some [cntW1]⟩ [] 0 =
      ⟨Response.json 400 msgTemplate, [], 0, []⟩ :=
  (claimC7_amended cntBad [cntW1] [] 0).1 (by decide) (by decide) (by decide)

/-- Claim C8 is refuted by a request whose `content_files[]` field is
present but holds one entry with an empty filename (the shape a browser
sends when no file is chosen): the emptiness checks pass, the template is
saved to disk, the loop skips the empty entry, and only then does the
handler answer 400 — so the 400 is not returned before saving a file to
disk; the ghost save trace of the run is non-empty. -/
theorem claimC8_cex :
    (mergeDocx reqC8 [] 0).response = Response.json 400 msgNoValid ∧
    (mergeDocx reqC8 [] 0).savedLog ≠ [] :=
  ⟨by decide, by decide⟩

/-- Claim C8 (amended): a request missing the `template` field or the
`content_files[]` field is answered 400 `Missing files` before any file is
saved, and a request whose template filename is empty is answered 400
`No files provided` before any file is saved; but when the template is
valid and every content entry is empty or invalid, the template is first
saved to disk (and deleted again) and the 400
`No valid .docx content files uploaded` is only returned afterwards. -/
theorem claimC8_amended (tf : ReqFile) (cfs : List ReqFile)
    (tOpt : Option ReqFile) (cOpt : Option (List ReqFile)) (fs0 : FS) (c0 : Nat) :
    (mergeDocx ⟨none, cOpt⟩ fs0 c0 = ⟨Response.json 400 msgMissing, fs0, c0, []⟩) ∧
    (mergeDocx ⟨tOpt, none⟩ fs0 c0 = ⟨Response.json 400 msgMissing, fs0, c0, []⟩) ∧
    (tf.filename = [] → mergeDocx ⟨some tf, some cfs⟩ fs0 c0 =
      ⟨Response.json 400 msgNoFiles, fs0, c0, []⟩) ∧
    (tf.filename ≠ [] → allowedFile tf.filename = true → cfs ≠ [] →
      (∀ cf ∈ cfs, allowedFile cf.filename = false) →
      (mergeDocx ⟨some tf, some cfs⟩ fs0 c0).response = Response.json 400 msgNoValid ∧
      (mergeDocx ⟨some tf, some cfs⟩ fs0 c0).savedLog =
        [upPath (tsName c0 (secureFilename tf.filename))]) := by
  refine ⟨?_, ?_, ?_, ?_⟩
  · simp [mergeDocx, handlerBody, catchErr]
  · cases tOpt <;> simp [mergeDocx, handlerBody, catchErr]
  · intro hname
    simp [mergeDocx, handlerBody, Or.inl hname, catchErr]
  · intro hname hallow hcfs hskip
    have h1 : ¬ (tf.filename = [] ∨ cfs = []) := by
      rw [not_or]
      exact ⟨hname, hcfs⟩
    rw [mergeDocx_valid tf cfs fs0 c0 h1 hallow]
    unfold afterValidation
    dsimp only
    rw [processContent_skip _ cfs _ hskip]
    dsimp only
    rw [finish_none _ rfl]
    exact ⟨rfl, rfl⟩

theorem claimC8_witness :
    (mergeDocx ⟨some tplW, some [⟨[], FileData.invalid 1⟩]⟩ [] 0).response =
      Response.json 400 msgNoValid ∧
    (mergeDocx ⟨some tplW, some [⟨[], FileData.invalid 1⟩]⟩ [] 0).savedLog =
      [upPath (tsName 0 (secureFilename ("t.docx".data)))] :=
  (claimC8_amended tplW [⟨[], FileData.invalid 1⟩] none none [] 0).2.2.2
    (by decide) (by decide) (by decide)
    (by
      intro cf h
      rw [List.mem_singleton] at h
      subst h
      rfl)

/-- Claim C9: the merge operation is idempotent in effect — running
`merge_documents_properly` twice in a row on the same template path,
content path and output base name produces two saved documents with
identical contents, differing only in their timestamp-derived output
paths; each call loads the template fresh from disk and mutates only its
own in-memory copy, so no state is shared between the calls. -/
theorem claimC9 (fs : FS) (c : Nat) (tp cp : FPath) (ob : List Char)
    (op1 : FPath) (fs1 : FS) (c1 : Nat) (op2 : FPath) (fs2 : FS) (c2 : Nat)
    (htp : oldPath c tp) (hcp : oldPath c cp)
    (h1 : mergeDocumentsProperly fs c tp cp ob = Except.ok (op1, fs1, c1))
    (h2 : mergeDocumentsProperly fs1 c1 tp cp ob = Except.ok (op2, fs2, c2)) :
    ∃ d, lookupFS fs2 op1 = some (FileData.docx d) ∧
      lookupFS fs2 op2 = some (FileData.docx d) ∧ op1 ≠ op2 := by
  obtain ⟨td, cd, hltp, hlcp, hop1, hfs1, hc1⟩ := merge_ok_shape h1
  obtain ⟨td2, cd2, hltp2, hlcp2, hop2, hfs2, hc2⟩ := merge_ok_shape h2
  subst hc1
  have hne_tp : tp ≠ op1 := by
    rw [hop1]
    exact old_ne_upMerged _ htp (le_refl c)
  have hne_cp : cp ≠ op1 := by
    rw [hop1]
    exact old_ne_upMerged _ hcp (le_refl c)
  rw [hfs1, lookup_writeFS_ne _ _ _ _ hne_tp, hltp] at hltp2
  rw [hfs1, lookup_writeFS_ne _ _ _ _ hne_cp, hlcp] at hlcp2
  have htd : td2 = td := by
    have := Option.some.inj hltp2
    cases this
    rfl
  have hcd : cd2 = cd := by
    have := Option.some.inj hlcp2
    cases this
    rfl
  have hne_ops : op1 ≠ op2 := by
    rw [hop1, hop2]
    intro heq
    have := (mergedName_inj (upPath_inj heq)).1
    omega
  refine ⟨mergeDocuments td cd, ?_, ?_, hne_ops⟩
  · rw [hfs2, lookup_writeFS_ne _ _ _ _ hne_ops, hfs1, lookup_writeFS_self]
  · rw [hfs2, lookup_writeFS_self, htd, hcd]

theorem claimC9_witness :
    ∃ d, lookupFS fs2W op1W = some (FileData.docx d) ∧
      lookupFS fs2W op2W = some (FileData.docx d) ∧ op1W ≠ op2W :=
  claimC9 fsW9 2 tpW9 cpW9 [] op1W fs1W 3 op2W fs2W 4
    ⟨0, [], by omega, Or.inl rfl⟩ ⟨1, [], by omega, Or.inl rfl⟩ rfl rfl

/-- Claim C10: `merge_documents_properly` never writes to the template
file or the content file on disk — after a successful call the bytes at
the template path and at the content path are unchanged (their names stem
from earlier timestamps, while the output is saved under a fresh
`merged_`-prefixed name) — and each merged output contains exactly one
inserted page break: the break count of the composition is the template's
plus the content's plus one, so breaks do not accumulate when one request
merges several content files against the same saved template path. -/
theorem claimC10 :
    (∀ (fs : FS) (c : Nat) (tp cp : FPath) (ob : List Char)
        (op : FPath) (fs' : FS) (c' : Nat),
      mergeDocumentsProperly fs c tp cp ob = Except.ok (op, fs', c') →
      oldPath c tp → oldPath c cp →
      lookupFS fs' tp = lookupFS fs tp ∧ lookupFS fs' cp = lookupFS fs cp) ∧
    (∀ t c : Doc,
      countBreaks (mergeDocuments t c) = countBreaks t + countBreaks c + 1) := by
  constructor
  · intro fs c tp cp ob op fs' c' h htp hcp
    obtain ⟨td, cd, hltp, hlcp, hop, hfs, hc⟩ := merge_ok_shape h
    have hne_tp : tp ≠ op := by
      rw [hop]
      exact old_ne_upMerged _ htp (le_refl c)
    have hne_cp : cp ≠ op := by
      rw [hop]
      exact old_ne_upMerged _ hcp (le_refl c)
    rw [hfs]
    exact ⟨lookup_writeFS_ne _ _ _ _ hne_tp, lookup_writeFS_ne _ _ _ _ hne_cp⟩
  · exact countBreaks_mergeDocuments

theorem claimC10_witness :
    lookupFS fs1W tpW9 = lookupFS fsW9 tpW9 ∧
    lookupFS fs1W cpW9 = lookupFS fsW9 cpW9 :=
  claimC10.1 fsW9 2 tpW9 cpW9 [] op1W fs1W 3 rfl
    ⟨0, [], by omega, Or.inl rfl⟩ ⟨1, [], by omega, Or.inl rfl⟩

theorem claimC1_witness : memFS fsKeep keepPath = true :=
  claimC1 ⟨some tplW, some [cntW1]⟩ fsKeep 0 keepPath (by decide)

theorem claimC3_witness :
    ∃ entries, (mergeDocx ⟨some tplW, some [cntW1, cntW2]⟩ [] 0).response =
        Response.file ⟨zipName, zipMime, Body.zipArchive entries⟩ ∧
      List.Forall₂ (fun (e : List Char × FileData) (cf : ReqFile) =>
        e.1 = outBasename cf.filename ∧ ∃ d, cf.content = FileData.docx d ∧
          e.2 = FileData.docx (mergeDocuments emptyDoc d))
        entries ([cntW1, cntW2].filter (fun cf => allowedFile cf.filename)) :=
  (claimC3 tplW [cntW1, cntW2] [] 0 emptyDoc (by decide) (by decide) rfl (by decide)
    (by
      intro cf h
      fin_cases h <;> exact fun _ => ⟨emptyDoc, rfl⟩)).2 (by decide)

theorem claimC4_witness :
    (mergeDocx ⟨some tplW, some [cntBad]⟩ [] 0).response =
      Response.json 400 msgNoValid :=
  (claimC4 tplW [cntBad] [] 0 emptyDoc).1 (by decide) (by decide) (by decide) (by decide)
